import Mathlib

/-!
Verification of the scheme-token component of `httplike` (`src/uri/scheme.rs`).

Byte strings are modelled as `List Nat` (each element a byte value).  The
definitions below are direct translations of the Rust source:
`SCHEME_CHARS`, `Scheme2::parse_exact`, `Scheme2::parse` (the prefix
scanner), `TryFrom<&[u8]> for Scheme`, `Scheme::as_str`,
`PartialEq for Scheme` and `Hash for Scheme`.
-/

deriving instance DecidableEq for Except

namespace Httplike

/-- The known protocols (`enum Protocol`), with both the `http` and the
`rtsp` feature enabled, matching the full source. -/
inductive Protocol where
  | http
  | https
  | rtsp
  | rtsps
deriving DecidableEq, Fintype

/-- `enum Scheme2<T>`: the internal representation of a scheme. -/
inductive Scheme2 (T : Type) where
  | none
  | standard (p : Protocol)
  | other (t : T)
deriving DecidableEq

/-- The two error kinds reachable from the scheme parsers
(`ErrorKind::InvalidScheme` and `ErrorKind::SchemeTooLong`). -/
inductive ErrorKind where
  | invalidScheme
  | schemeTooLong
deriving DecidableEq

/-- The public `Scheme` type holds a `Scheme2<Box<ByteStr>>`; the payload of
`Other` is a byte string. -/
abbrev Scheme := Scheme2 (List Nat)

/-- `const MAX_SCHEME_LEN: usize = 64`. -/
def MAX_SCHEME_LEN : Nat := 64

/-- `b"http"`. -/
def httpBytes : List Nat := [104, 116, 116, 112]

/-- `b"https"`. -/
def httpsBytes : List Nat := [104, 116, 116, 112, 115]

/-- `b"rtsp"`. -/
def rtspBytes : List Nat := [114, 116, 115, 112]

/-- `b"rtsps"`. -/
def rtspsBytes : List Nat := [114, 116, 115, 112, 115]

/-- `b"://"`. -/
def sepBytes : List Nat := [58, 47, 47]

/-- The canonical lowercase spelling of each known protocol. -/
def spelling : Protocol → List Nat
  | .http => httpBytes
  | .https => httpsBytes
  | .rtsp => rtspBytes
  | .rtsps => rtspsBytes

/-- `const SCHEME_CHARS: [u8; 256]`, transcribed entry for entry from the
source (rows of ten, indices 0 to 255).  Valid scheme characters map to
their own value, `:` maps to `b':'` (58), everything else maps to 0. -/
def SCHEME_CHARS : List Nat := [
--  0    1    2    3    4    5    6    7    8    9
    0,   0,   0,   0,   0,   0,   0,   0,   0,   0, --   x
    0,   0,   0,   0,   0,   0,   0,   0,   0,   0, --  1x
    0,   0,   0,   0,   0,   0,   0,   0,   0,   0, --  2x
    0,   0,   0,   0,   0,   0,   0,   0,   0,   0, --  3x
    0,   0,   0,  43,   0,  45,  46,   0,  48,  49, --  4x
   50,  51,  52,  53,  54,  55,  56,  57,  58,   0, --  5x
    0,   0,   0,   0,   0,  65,  66,  67,  68,  69, --  6x
   70,  71,  72,  73,  74,  75,  76,  77,  78,  79, --  7x
   80,  81,  82,  83,  84,  85,  86,  87,  88,  89, --  8x
   90,   0,   0,   0,   0,   0,   0,  97,  98,  99, --  9x
  100, 101, 102, 103, 104, 105, 106, 107, 108, 109, -- 10x
  110, 111, 112, 113, 114, 115, 116, 117, 118, 119, -- 11x
  120, 121, 122,   0,   0,   0, 126,   0,   0,   0, -- 12x
    0,   0,   0,   0,   0,   0,   0,   0,   0,   0, -- 13x
    0,   0,   0,   0,   0,   0,   0,   0,   0,   0, -- 14x
    0,   0,   0,   0,   0,   0,   0,   0,   0,   0, -- 15x
    0,   0,   0,   0,   0,   0,   0,   0,   0,   0, -- 16x
    0,   0,   0,   0,   0,   0,   0,   0,   0,   0, -- 17x
    0,   0,   0,   0,   0,   0,   0,   0,   0,   0, -- 18x
    0,   0,   0,   0,   0,   0,   0,   0,   0,   0, -- 19x
    0,   0,   0,   0,   0,   0,   0,   0,   0,   0, -- 20x
    0,   0,   0,   0,   0,   0,   0,   0,   0,   0, -- 21x
    0,   0,   0,   0,   0,   0,   0,   0,   0,   0, -- 22x
    0,   0,   0,   0,   0,   0,   0,   0,   0,   0, -- 23x
    0,   0,   0,   0,   0,   0,   0,   0,   0,   0, -- 24x
    0,   0,   0,   0,   0,   0                      -- 25x
]

/-- `SCHEME_CHARS[b as usize]`; out-of-range indices (impossible for a byte)
read as 0. -/
def schemeChar (b : Nat) : Nat := SCHEME_CHARS.getD b 0

/-- `u8::to_ascii_lowercase`. -/
def toLowerByte (b : Nat) : Nat := if 65 ≤ b ∧ b ≤ 90 then b + 32 else b

/-- `<[u8]>::eq_ignore_ascii_case`: equal lengths and pointwise equality
after ASCII lowercasing. -/
def eqIgnoreCase : List Nat → List Nat → Bool
  | [], [] => true
  | x :: xs, y :: ys => (toLowerByte x = toLowerByte y) && eqIgnoreCase xs ys
  | _, _ => false

/-- The byte-validation loop of `Scheme2::parse_exact`: each byte is
classified through `SCHEME_CHARS`; a `b':'` class or a 0 class rejects the
input with `InvalidScheme`. -/
def checkSchemeBytes : List Nat → Except ErrorKind Unit
  | [] => .ok ()
  | b :: rest =>
    if schemeChar b = 58 then .error .invalidScheme
    else if schemeChar b = 0 then .error .invalidScheme
    else checkSchemeBytes rest

/-- `Scheme2::parse_exact`: case-sensitive literal match against each known
spelling, then the length bound, then the per-byte classification.  Note the
source has no emptiness check: the empty input reaches `Ok(Scheme2::Other)`. -/
def parse_exact (s : List Nat) : Except ErrorKind (Scheme2 Unit) :=
  if s = httpBytes then .ok (.standard .http)
  else if s = httpsBytes then .ok (.standard .https)
  else if s = rtspBytes then .ok (.standard .rtsp)
  else if s = rtspsBytes then .ok (.standard .rtsps)
  else if s.length > MAX_SCHEME_LEN then .error .schemeTooLong
  else
    match checkSchemeBytes s with
    | .error e => .error e
    | .ok () => .ok (.other ())

/-- The scanning loop of `Scheme2::parse` (`for i in 0..s.len()`), written
structurally on the not-yet-scanned suffix; `i` is the number of bytes
already consumed, so at the list head the source's `s[i]` is the head,
`s.len() < i + 3` is `rest.length < 2`, and `s[i+1..i+3]` is `rest.take 2`. -/
def scanLoop : Nat → List Nat → Except ErrorKind (Scheme2 Nat)
  | _, [] => .ok .none
  | i, b :: rest =>
    if schemeChar b = 58 then
      -- Not enough data remaining
      if rest.length < 2 then .ok .none
      -- Not a scheme
      else if rest.take 2 ≠ [47, 47] then .ok .none
      else if i > MAX_SCHEME_LEN then .error .schemeTooLong
      -- Return scheme
      else .ok (.other i)
    else if schemeChar b = 0 then .ok .none
    else scanLoop (i + 1) rest

/-- `Scheme2::parse`, the prefix scanner: the 7-byte fast paths
(`http://`, `rtsp://`), the 8-byte fast paths (`https://`, `rtsps://`),
then — only when the input is longer than 3 bytes — the general scan. -/
def parse (s : List Nat) : Except ErrorKind (Scheme2 Nat) :=
  if 7 ≤ s.length ∧ eqIgnoreCase (s.take 7) (httpBytes ++ sepBytes) = true then
    .ok (.standard .http)
  else if 7 ≤ s.length ∧ eqIgnoreCase (s.take 7) (rtspBytes ++ sepBytes) = true then
    .ok (.standard .rtsp)
  else if 8 ≤ s.length ∧ eqIgnoreCase (s.take 8) (httpsBytes ++ sepBytes) = true then
    .ok (.standard .https)
  else if 8 ≤ s.length ∧ eqIgnoreCase (s.take 8) (rtspsBytes ++ sepBytes) = true then
    .ok (.standard .rtsps)
  else if 3 < s.length then
    scanLoop 0 s
  else
    .ok .none

/-- `impl TryFrom<&[u8]> for Scheme`: delegate to `parse_exact`; a `None`
result maps to `InvalidScheme`, an `Other` result copies the input bytes. -/
def try_from (s : List Nat) : Except ErrorKind Scheme :=
  match parse_exact s with
  | .error e => .error e
  | .ok .none => .error .invalidScheme
  | .ok (.standard p) => .ok (.standard p)
  | .ok (.other _) => .ok (.other s)

/-- `Scheme::as_str`.  The source panics (`unreachable!`) on the internal
`None` variant, which publicly constructed schemes never carry; that arm is
mapped to the empty byte string here. -/
def as_str : Scheme → List Nat
  | .standard .http => httpBytes
  | .standard .https => httpsBytes
  | .standard .rtsp => rtspBytes
  | .standard .rtsps => rtspsBytes
  | .other v => v
  | .none => []

/-- `impl PartialEq for Scheme`.  The source panics (`unreachable!`) when
either side is the internal `None` variant; those arms are mapped to
`false` here (publicly constructed schemes are never `None`). -/
def scheme_eq : Scheme → Scheme → Bool
  | .standard .http, .standard .http => true
  | .standard .https, .standard .https => true
  | .standard .rtsp, .standard .rtsp => true
  | .standard .rtsps, .standard .rtsps => true
  | .other a, .other b => eqIgnoreCase a b
  | .none, _ => false
  | _, .none => false
  | _, _ => false

/-- One token written to the hasher: a `usize` length write, a `u8` write,
or the fixed per-protocol `u8` tag write. -/
inductive HashTok where
  | lenTok (n : Nat)
  | byteTok (b : Nat)
  | tagTok (n : Nat)
deriving DecidableEq

/-- `impl Hash for Scheme`: the exact sequence of values fed to the hasher.
`Standard` writes a fixed tag byte; `Other` writes its length and then each
byte ASCII-lowercased; `None` writes nothing. -/
def scheme_hash : Scheme → List HashTok
  | .none => []
  | .standard .http => [.tagTok 1]
  | .standard .https => [.tagTok 2]
  | .standard .rtsp => [.tagTok 3]
  | .standard .rtsps => [.tagTok 4]
  | .other s => .lenTok s.length :: s.map (fun b => .byteTok (toLowerByte b))

/-- The scheme alphabet named by the specification:
`ALPHA / DIGIT / "+" / "-" / "."`. -/
def isSchemeAlphaByte (b : Nat) : Bool :=
  (65 ≤ b && b ≤ 90) || (97 ≤ b && b ≤ 122) || (48 ≤ b && b ≤ 57) ||
    b = 43 || b = 45 || b = 46

/-- A token was produced by one of the two parse entry points: by
`TryFrom` (the exact validator), or by the scanner either as a known
protocol or as an `Other` slice of the scanned input. -/
def ProducedBy (tk : Scheme) : Prop :=
  (∃ s, try_from s = .ok tk) ∨
  (∃ s p, parse s = .ok (.standard p) ∧ tk = .standard p) ∨
  (∃ s n, parse s = .ok (.other n) ∧ tk = .other (s.take n))

/-! ### List auxiliary lemmas -/

theorem getD_append_left (t l : List Nat) (i : Nat) (h : i < t.length) :
    (t ++ l).getD i 0 = t.getD i 0 := by
  induction t generalizing i with
  | nil => simp at h
  | cons a t ih =>
    cases i with
    | zero => simp
    | succ j =>
      rw [List.cons_append, List.getD_cons_succ, List.getD_cons_succ]
      exact ih j (by simpa using h)

theorem getD_append_right (t l : List Nat) (j : Nat) :
    (t ++ l).getD (t.length + j) 0 = l.getD j 0 := by
  induction t with
  | nil => simp
  | cons a t ih =>
    have hidx : (a :: t).length + j = (t.length + j) + 1 := by
      simp [List.length_cons]; omega
    rw [List.cons_append, hidx, List.getD_cons_succ, ih]

theorem getD_take_eq (l : List Nat) (n i : Nat) (h : i < n) :
    (l.take n).getD i 0 = l.getD i 0 := by
  induction l generalizing n i with
  | nil => simp
  | cons a t ih =>
    cases n with
    | zero => omega
    | succ m =>
      cases i with
      | zero => simp
      | succ j =>
        rw [List.take_succ_cons, List.getD_cons_succ, List.getD_cons_succ]
        exact ih m j (by omega)

theorem getD_mem (l : List Nat) (i : Nat) (h : i < l.length) : l.getD i 0 ∈ l := by
  induction l generalizing i with
  | nil => simp at h
  | cons a t ih =>
    cases i with
    | zero => simp
    | succ j =>
      rw [List.getD_cons_succ]
      exact List.mem_cons_of_mem a (ih j (by simpa using h))

theorem take_append_cons (t l : List Nat) (k : Nat) :
    (t ++ l).take (t.length + k) = t ++ l.take k := by
  induction t with
  | nil => simp
  | cons a t ih =>
    have hidx : (a :: t).length + k = (t.length + k) + 1 := by
      simp [List.length_cons]; omega
    rw [List.cons_append, hidx, List.take_succ_cons, ih, List.cons_append]

/-! ### Facts about the classification table -/

set_option maxRecDepth 4096

theorem schemeChar_id_or_zero (x : Nat) : schemeChar x = 0 ∨ schemeChar x = x := by
  by_cases h : x < 256
  · have h2 : ∀ y : Fin 256, schemeChar y.val = 0 ∨ schemeChar y.val = y.val := by decide
    exact h2 ⟨x, h⟩
  · left
    have hlen : SCHEME_CHARS.length = 256 := by decide
    unfold schemeChar
    rw [List.getD_eq_getElem?_getD, List.getElem?_eq_none (by omega)]
    rfl

theorem schemeChar_eq_58_iff (x : Nat) : schemeChar x = 58 ↔ x = 58 := by
  constructor
  · intro h
    rcases schemeChar_id_or_zero x with h0 | h1 <;> omega
  · rintro rfl
    decide

/-! ### Facts about ASCII lowercasing -/

theorem toLowerByte_inv (x c : Nat) (h : toLowerByte x = c) :
    x = c ∨ (65 ≤ x ∧ x ≤ 90 ∧ x + 32 = c) := by
  unfold toLowerByte at h
  split at h <;> omega

theorem toLowerByte_eq_58 (x : Nat) (h : toLowerByte x = 58) : x = 58 := by
  rcases toLowerByte_inv x 58 h with h1 | h1 <;> omega

theorem toLowerByte_eq_47 (x : Nat) (h : toLowerByte x = 47) : x = 47 := by
  rcases toLowerByte_inv x 47 h with h1 | h1 <;> omega

theorem toLowerByte_eq_lower (x c : Nat) (hc : 97 ≤ c ∧ c ≤ 122)
    (h : toLowerByte x = c) : x = c ∨ x = c - 32 := by
  rcases toLowerByte_inv x c h with h1 | h1 <;> omega

/-! ### Facts about the spec alphabet -/

theorem alpha_bounds (x : Nat) (h : isSchemeAlphaByte x = true) :
    43 ≤ x ∧ x ≤ 122 ∧ x ≠ 58 ∧ x ≠ 47 := by
  simp only [isSchemeAlphaByte, Bool.or_eq_true, Bool.and_eq_true,
    decide_eq_true_eq] at h
  omega

theorem isSchemeAlphaByte_of_letter (x : Nat)
    (h : (65 ≤ x ∧ x ≤ 90) ∨ (97 ≤ x ∧ x ≤ 122)) : isSchemeAlphaByte x = true := by
  simp only [isSchemeAlphaByte, Bool.or_eq_true, Bool.and_eq_true,
    decide_eq_true_eq]
  omega

theorem schemeChar_alpha (x : Nat) (h : isSchemeAlphaByte x = true) :
    schemeChar x = x := by
  have hlt : x < 256 := by have := alpha_bounds x h; omega
  have h2 : ∀ y : Fin 256, isSchemeAlphaByte y.val = true → schemeChar y.val = y.val := by
    decide
  exact h2 ⟨x, hlt⟩ h

theorem schemeChar_valid_of_alpha (x : Nat) (h : isSchemeAlphaByte x = true) :
    schemeChar x ≠ 0 ∧ schemeChar x ≠ 58 := by
  have h1 := schemeChar_alpha x h
  have h2 := alpha_bounds x h
  omega

/-! ### Facts about case-insensitive byte-string equality -/

theorem eqIgnoreCase_refl (s : List Nat) : eqIgnoreCase s s = true := by
  induction s with
  | nil => rfl
  | cons a t ih => simp [eqIgnoreCase, ih]

theorem eqIgnoreCase_length (a b : List Nat) (h : eqIgnoreCase a b = true) :
    a.length = b.length := by
  induction a generalizing b with
  | nil =>
    cases b with
    | nil => rfl
    | cons y ys => simp [eqIgnoreCase] at h
  | cons x xs ih =>
    cases b with
    | nil => simp [eqIgnoreCase] at h
    | cons y ys =>
      simp only [eqIgnoreCase, Bool.and_eq_true, decide_eq_true_eq] at h
      simp [ih ys h.2]

theorem eqIgnoreCase_length_ne (a b : List Nat) (h : a.length ≠ b.length) :
    eqIgnoreCase a b = false := by
  by_contra hc
  exact h (eqIgnoreCase_length a b (by simpa using hc))

theorem eqIgnoreCase_symm (a b : List Nat) (h : eqIgnoreCase a b = true) :
    eqIgnoreCase b a = true := by
  induction a generalizing b with
  | nil =>
    cases b with
    | nil => rfl
    | cons y ys => simp [eqIgnoreCase] at h
  | cons x xs ih =>
    cases b with
    | nil => simp [eqIgnoreCase] at h
    | cons y ys =>
      simp only [eqIgnoreCase, Bool.and_eq_true, decide_eq_true_eq] at h ⊢
      exact ⟨h.1.symm, ih ys h.2⟩

theorem eqIgnoreCase_trans (a b c : List Nat) (hab : eqIgnoreCase a b = true)
    (hbc : eqIgnoreCase b c = true) : eqIgnoreCase a c = true := by
  induction a generalizing b c with
  | nil =>
    cases b with
    | nil => exact hbc
    | cons y ys => simp [eqIgnoreCase] at hab
  | cons x xs ih =>
    cases b with
    | nil => simp [eqIgnoreCase] at hab
    | cons y ys =>
      cases c with
      | nil => simp [eqIgnoreCase] at hbc
      | cons z zs =>
        simp only [eqIgnoreCase, Bool.and_eq_true, decide_eq_true_eq] at hab hbc ⊢
        exact ⟨hab.1.trans hbc.1, ih ys zs hab.2 hbc.2⟩

theorem eqIgnoreCase_append (a b c d : List Nat) (h : a.length = b.length) :
    eqIgnoreCase (a ++ c) (b ++ d) = (eqIgnoreCase a b && eqIgnoreCase c d) := by
  induction a generalizing b with
  | nil =>
    cases b with
    | nil => simp [eqIgnoreCase]
    | cons y ys => simp at h
  | cons x xs ih =>
    cases b with
    | nil => simp at h
    | cons y ys =>
      simp only [List.cons_append, eqIgnoreCase, List.append_eq,
        ih ys (by simpa using h), Bool.and_assoc]

theorem eqIgnoreCase_getD (a b : List Nat) (h : eqIgnoreCase a b = true)
    (i : Nat) (hi : i < a.length) :
    toLowerByte (a.getD i 0) = toLowerByte (b.getD i 0) := by
  induction a generalizing b i with
  | nil => simp at hi
  | cons x xs ih =>
    cases b with
    | nil => simp [eqIgnoreCase] at h
    | cons y ys =>
      simp only [eqIgnoreCase, Bool.and_eq_true, decide_eq_true_eq] at h
      cases i with
      | zero => simpa using h.1
      | succ j =>
        rw [List.getD_cons_succ, List.getD_cons_succ]
        exact ih ys h.2 j (by simpa using hi)

theorem eqIgnoreCase_of_getD (a b : List Nat) (hlen : a.length = b.length)
    (h : ∀ i, i < a.length → toLowerByte (a.getD i 0) = toLowerByte (b.getD i 0)) :
    eqIgnoreCase a b = true := by
  induction a generalizing b with
  | nil =>
    cases b with
    | nil => rfl
    | cons y ys => simp at hlen
  | cons x xs ih =>
    cases b with
    | nil => simp at hlen
    | cons y ys =>
      simp only [eqIgnoreCase, Bool.and_eq_true, decide_eq_true_eq]
      refine ⟨by simpa using h 0 (by simp), ?_⟩
      refine ih ys (by simpa using hlen) (fun i hi => ?_)
      simpa using h (i + 1) (by simpa using hi)

theorem eqIgnoreCase_letters (s w : List Nat) (h : eqIgnoreCase s w = true)
    (hw : ∀ b ∈ w, 97 ≤ b ∧ b ≤ 122) :
    ∀ x ∈ s, isSchemeAlphaByte x = true := by
  induction s generalizing w with
  | nil => simp
  | cons a t ih =>
    cases w with
    | nil => simp [eqIgnoreCase] at h
    | cons y ys =>
      simp only [eqIgnoreCase, Bool.and_eq_true, decide_eq_true_eq] at h
      intro x hx
      rcases List.mem_cons.mp hx with rfl | hx
      · have hy : 97 ≤ y ∧ y ≤ 122 := hw y (List.mem_cons_self y ys)
        have hly : toLowerByte y = y := by unfold toLowerByte; split <;> omega
        have := toLowerByte_eq_lower x y hy (by rw [h.1, hly])
        apply isSchemeAlphaByte_of_letter
        omega
      · exact ih ys h.2 (fun b hb => hw b (List.mem_cons_of_mem y hb)) x hx

/-! ### Facts about the known spellings -/

theorem spelling_lower (p : Protocol) : ∀ b ∈ spelling p, 97 ≤ b ∧ b ≤ 122 := by
  cases p <;> decide

theorem spelling_ne_58 (p : Protocol) : ∀ b ∈ spelling p, b ≠ 58 := by
  cases p <;> decide

/-! ### Behaviour of the byte-validation loop -/

theorem checkSchemeBytes_ok (t : List Nat)
    (ht : ∀ x ∈ t, schemeChar x ≠ 0 ∧ schemeChar x ≠ 58) :
    checkSchemeBytes t = .ok () := by
  induction t with
  | nil => rfl
  | cons a rest ih =>
    have ha := ht a (List.mem_cons_self a rest)
    simp only [checkSchemeBytes, if_neg ha.2, if_neg ha.1]
    exact ih (fun x hx => ht x (List.mem_cons_of_mem a hx))

/-! ### Behaviour of the scanning loop -/

theorem scanLoop_valid_colon (t : List Nat) (i : Nat) (r : List Nat)
    (ht : ∀ x ∈ t, schemeChar x ≠ 0 ∧ schemeChar x ≠ 58) :
    scanLoop i (t ++ 58 :: 47 :: 47 :: r) =
      if 64 < i + t.length then .error .schemeTooLong
      else .ok (.other (i + t.length)) := by
  induction t generalizing i with
  | nil =>
    have h58 : schemeChar 58 = 58 := by decide
    simp only [List.nil_append, scanLoop]
    rw [if_pos h58, if_neg (by simp), if_neg (by simp)]
    simp [MAX_SCHEME_LEN, gt_iff_lt]
  | cons a rest ih =>
    have ha := ht a (List.mem_cons_self a rest)
    simp only [List.cons_append, List.append_eq, scanLoop]
    rw [if_neg ha.2, if_neg ha.1,
      ih (i + 1) (fun x hx => ht x (List.mem_cons_of_mem a hx))]
    have hlen : i + 1 + rest.length = i + (a :: rest).length := by
      simp [List.length_cons]; omega
    rw [hlen]

theorem scanLoop_colon_break (t : List Nat) (i : Nat) (r : List Nat)
    (ht : ∀ x ∈ t, schemeChar x ≠ 0 ∧ schemeChar x ≠ 58)
    (hr : r.take 2 ≠ [47, 47]) :
    scanLoop i (t ++ 58 :: r) = .ok .none := by
  induction t generalizing i with
  | nil =>
    have h58 : schemeChar 58 = 58 := by decide
    simp only [List.nil_append, scanLoop]
    rw [if_pos h58]
    by_cases h2 : r.length < 2
    · rw [if_pos h2]
    · rw [if_neg h2, if_pos hr]
  | cons a rest ih =>
    have ha := ht a (List.mem_cons_self a rest)
    simp only [List.cons_append, List.append_eq, scanLoop]
    rw [if_neg ha.2, if_neg ha.1]
    exact ih (i + 1) (fun x hx => ht x (List.mem_cons_of_mem a hx))

theorem scanLoop_invalid (t : List Nat) (i : Nat) (b : Nat) (r : List Nat)
    (ht : ∀ x ∈ t, schemeChar x ≠ 0 ∧ schemeChar x ≠ 58)
    (hb : schemeChar b = 0) :
    scanLoop i (t ++ b :: r) = .ok .none := by
  induction t generalizing i with
  | nil =>
    simp only [List.nil_append, scanLoop]
    rw [if_neg (by simp [hb]), if_pos hb]
  | cons a rest ih =>
    have ha := ht a (List.mem_cons_self a rest)
    simp only [List.cons_append, List.append_eq, scanLoop]
    rw [if_neg ha.2, if_neg ha.1]
    exact ih (i + 1) (fun x hx => ht x (List.mem_cons_of_mem a hx))

theorem scanLoop_ok_other_inv (s : List Nat) (i n : Nat)
    (h : scanLoop i s = .ok (.other n)) :
    ∃ t r, s = t ++ 58 :: 47 :: 47 :: r ∧ i + t.length = n ∧
      (∀ x ∈ t, schemeChar x ≠ 0 ∧ schemeChar x ≠ 58) ∧ n ≤ 64 := by
  induction s generalizing i with
  | nil => simp [scanLoop] at h
  | cons b rest ih =>
    simp only [scanLoop] at h
    by_cases h58 : schemeChar b = 58
    · rw [if_pos h58] at h
      by_cases hl : rest.length < 2
      · rw [if_pos hl] at h; simp at h
      · rw [if_neg hl] at h
        by_cases htk : rest.take 2 ≠ [47, 47]
        · rw [if_pos htk] at h; simp at h
        · rw [if_neg htk] at h
          by_cases hgt : i > MAX_SCHEME_LEN
          · rw [if_pos hgt] at h; simp at h
          · rw [if_neg hgt] at h
            have hin : i = n := by simpa using h
            push_neg at htk
            obtain ⟨r', hr'⟩ : ∃ r', rest = 47 :: 47 :: r' := by
              cases rest with
              | nil => simp at hl
              | cons x xs =>
                cases xs with
                | nil => simp at hl
                | cons y ys =>
                  simp only [List.take_succ_cons, List.take_zero,
                    List.cons.injEq, and_true] at htk
                  exact ⟨ys, by rw [htk.1, htk.2]⟩
            have hb' : b = 58 := (schemeChar_eq_58_iff b).mp h58
            refine ⟨[], r', by simp [hr', hb'], by simpa using hin, by simp, ?_⟩
            simp only [MAX_SCHEME_LEN] at hgt
            omega
    · rw [if_neg h58] at h
      by_cases h0 : schemeChar b = 0
      · rw [if_pos h0] at h; simp at h
      · rw [if_neg h0] at h
        obtain ⟨t, r, hs, hn, hv, h64⟩ := ih (i + 1) h
        refine ⟨b :: t, r, by simp [hs], ?_, ?_, h64⟩
        · simp only [List.length_cons]; omega
        · intro x hx
          rcases List.mem_cons.mp hx with rfl | hx
          · exact ⟨h0, h58⟩
          · exact hv x hx

/-! ### The fast-path literal checks cannot fire spuriously -/

/-- The fast-path comparison of a prefix of `t ++ ":" ++ r` against
`sp ++ "://"` (for a lowercase spelling `sp`) fails whenever `t` contains no
colon byte and either `r` does not continue with `"//"` or `t` is not a
case-insensitive match of `sp`. -/
theorem fast_check_colon_false (sp t r : List Nat)
    (hsp : ∀ b ∈ sp, 97 ≤ b ∧ b ≤ 122)
    (ht : ∀ b ∈ t, b ≠ 58)
    (hr : r.take 2 ≠ [47, 47] ∨ eqIgnoreCase t sp = false) :
    eqIgnoreCase ((t ++ 58 :: r).take (sp.length + 3)) (sp ++ [58, 47, 47]) = false := by
  by_contra hc
  have heq : eqIgnoreCase ((t ++ 58 :: r).take (sp.length + 3)) (sp ++ [58, 47, 47]) = true := by
    simpa using hc
  have hL : (t ++ 58 :: r).length = t.length + r.length + 1 := by
    simp only [List.length_append, List.length_cons]; omega
  have hR : (sp ++ [58, 47, 47]).length = sp.length + 3 := by
    simp only [List.length_append, List.length_cons, List.length_nil]
  have hlen := eqIgnoreCase_length _ _ heq
  rw [List.length_take, hL, hR] at hlen
  have hul : sp.length + 3 ≤ t.length + r.length + 1 := by omega
  have hpt : ∀ i, i < sp.length + 3 →
      toLowerByte ((t ++ 58 :: r).getD i 0) = toLowerByte ((sp ++ [58, 47, 47]).getD i 0) := by
    intro i hi
    have h1 := eqIgnoreCase_getD _ _ heq i (by rw [List.length_take, hL]; omega)
    rwa [getD_take_eq _ _ _ hi] at h1
  rcases Nat.lt_trichotomy t.length sp.length with hlt | heqlen | hgt
  · -- the colon of the input lines up with a letter of the spelling
    have h1 := hpt t.length (by omega)
    have h2 : (t ++ 58 :: r).getD t.length 0 = 58 := by
      have := getD_append_right t (58 :: r) 0
      simpa using this
    have h3 : (sp ++ [58, 47, 47]).getD t.length 0 = sp.getD t.length 0 :=
      getD_append_left sp _ t.length hlt
    have h4 : sp.getD t.length 0 ∈ sp := getD_mem sp t.length hlt
    have h5 := hsp _ h4
    rw [h2, h3] at h1
    have h6 : toLowerByte 58 = 58 := by decide
    have h7 : toLowerByte (sp.getD t.length 0) = sp.getD t.length 0 := by
      unfold toLowerByte; split <;> omega
    omega
  · -- equal lengths: the match forces both a case-insensitive spelling
    -- match and a following "//"
    have htsp : eqIgnoreCase t sp = true := by
      refine eqIgnoreCase_of_getD t sp heqlen (fun i hi => ?_)
      have h1 := hpt i (by omega)
      rwa [getD_append_left t (58 :: r) i hi,
        getD_append_left sp [58, 47, 47] i (by omega)] at h1
    have hrlen : 2 ≤ r.length := by omega
    obtain ⟨r0, r1, r', hreq⟩ : ∃ r0 r1 r', r = r0 :: r1 :: r' := by
      cases r with
      | nil => simp at hrlen
      | cons x xs =>
        cases xs with
        | nil => simp at hrlen
        | cons y ys => exact ⟨x, y, ys, rfl⟩
    have h1 := hpt (sp.length + 1) (by omega)
    have h2 := hpt (sp.length + 2) (by omega)
    have hx1 : (t ++ 58 :: r).getD (sp.length + 1) 0 = r0 := by
      rw [← heqlen]
      have := getD_append_right t (58 :: r) 1
      simpa [hreq] using this
    have hx2 : (t ++ 58 :: r).getD (sp.length + 2) 0 = r1 := by
      rw [← heqlen]
      have := getD_append_right t (58 :: r) 2
      simpa [hreq] using this
    have hy1 : (sp ++ [58, 47, 47]).getD (sp.length + 1) 0 = 47 := by
      have := getD_append_right sp [58, 47, 47] 1
      simpa using this
    have hy2 : (sp ++ [58, 47, 47]).getD (sp.length + 2) 0 = 47 := by
      have := getD_append_right sp [58, 47, 47] 2
      simpa using this
    rw [hx1, hy1] at h1
    rw [hx2, hy2] at h2
    have hr0 : r0 = 47 := toLowerByte_eq_47 r0 (by rw [h1]; decide)
    have hr1 : r1 = 47 := toLowerByte_eq_47 r1 (by rw [h2]; decide)
    have hrt : r.take 2 = [47, 47] := by simp [hreq, hr0, hr1]
    rcases hr with hr | hr
    · exact hr hrt
    · rw [htsp] at hr; simp at hr
  · -- a colon of the spelling lines up with a scheme byte of t
    have h1 := hpt sp.length (by omega)
    have h2 : (t ++ 58 :: r).getD sp.length 0 = t.getD sp.length 0 :=
      getD_append_left t _ sp.length hgt
    have h3 : (sp ++ [58, 47, 47]).getD sp.length 0 = 58 := by
      have := getD_append_right sp [58, 47, 47] 0
      simpa using this
    rw [h2, h3] at h1
    have h4 : t.getD sp.length 0 = 58 :=
      toLowerByte_eq_58 _ (by rw [h1]; decide)
    exact ht _ (getD_mem t sp.length hgt) h4

/-- The fast-path comparison against `sp ++ "://"` fails when the input is
`t ++ b ++ r` with `t` made of valid scheme bytes and `b` an invalid byte. -/
theorem fast_check_invalid_false (sp t : List Nat) (b : Nat) (r : List Nat)
    (hsp : ∀ x ∈ sp, 97 ≤ x ∧ x ≤ 122)
    (ht : ∀ x ∈ t, schemeChar x ≠ 0 ∧ schemeChar x ≠ 58)
    (hb : schemeChar b = 0) :
    eqIgnoreCase ((t ++ b :: r).take (sp.length + 3)) (sp ++ [58, 47, 47]) = false := by
  by_contra hc
  have heq : eqIgnoreCase ((t ++ b :: r).take (sp.length + 3)) (sp ++ [58, 47, 47]) = true := by
    simpa using hc
  have hL : (t ++ b :: r).length = t.length + r.length + 1 := by
    simp only [List.length_append, List.length_cons]; omega
  have hR : (sp ++ [58, 47, 47]).length = sp.length + 3 := by
    simp only [List.length_append, List.length_cons, List.length_nil]
  have hlen := eqIgnoreCase_length _ _ heq
  rw [List.length_take, hL, hR] at hlen
  have hul : sp.length + 3 ≤ t.length + r.length + 1 := by omega
  have hpt : ∀ i, i < sp.length + 3 →
      toLowerByte ((t ++ b :: r).getD i 0) = toLowerByte ((sp ++ [58, 47, 47]).getD i 0) := by
    intro i hi
    have h1 := eqIgnoreCase_getD _ _ heq i (by rw [List.length_take, hL]; omega)
    rwa [getD_take_eq _ _ _ hi] at h1
  rcases Nat.lt_trichotomy t.length sp.length with hlt | heqlen | hgt
  · -- the invalid byte lines up with a letter of the spelling
    have h1 := hpt t.length (by omega)
    have h2 : (t ++ b :: r).getD t.length 0 = b := by
      have := getD_append_right t (b :: r) 0
      simpa using this
    have h3 : (sp ++ [58, 47, 47]).getD t.length 0 = sp.getD t.length 0 :=
      getD_append_left sp _ t.length hlt
    have h4 := hsp _ (getD_mem sp t.length hlt)
    rw [h2, h3] at h1
    have h5 : toLowerByte (sp.getD t.length 0) = sp.getD t.length 0 := by
      unfold toLowerByte; split <;> omega
    rw [h5] at h1
    have h6 := toLowerByte_eq_lower b _ h4 h1
    have h7 : isSchemeAlphaByte b = true :=
      isSchemeAlphaByte_of_letter b (by omega)
    have h8 := schemeChar_alpha b h7
    omega
  · -- the invalid byte lines up with the colon of the literal
    have h1 := hpt t.length (by omega)
    have h2 : (t ++ b :: r).getD t.length 0 = b := by
      have := getD_append_right t (b :: r) 0
      simpa using this
    have h3 : (sp ++ [58, 47, 47]).getD t.length 0 = 58 := by
      rw [heqlen]
      have := getD_append_right sp [58, 47, 47] 0
      simpa using this
    rw [h2, h3] at h1
    have h4 : b = 58 := toLowerByte_eq_58 _ (by rw [h1]; decide)
    rw [h4] at hb
    simp [schemeChar, SCHEME_CHARS] at hb
  · -- a colon of the literal lines up with a valid scheme byte of t
    have h1 := hpt sp.length (by omega)
    have h2 : (t ++ b :: r).getD sp.length 0 = t.getD sp.length 0 :=
      getD_append_left t _ sp.length hgt
    have h3 : (sp ++ [58, 47, 47]).getD sp.length 0 = 58 := by
      have := getD_append_right sp [58, 47, 47] 0
      simpa using this
    rw [h2, h3] at h1
    have h4 : t.getD sp.length 0 = 58 :=
      toLowerByte_eq_58 _ (by rw [h1]; decide)
    have h5 := ht _ (getD_mem t sp.length hgt)
    rw [h4] at h5
    exact h5.2 (by decide)

theorem eqIgnoreCase_excl (c a b : List Nat) (hca : eqIgnoreCase c a = true)
    (hab : eqIgnoreCase a b = false) : eqIgnoreCase c b = false := by
  by_contra hc2
  have hcb : eqIgnoreCase c b = true := by simpa using hc2
  have := eqIgnoreCase_trans a c b (eqIgnoreCase_symm c a hca) hcb
  simp [this] at hab

theorem fast_check_colon_false7 (sp t r : List Nat) (n : Nat)
    (hsp : ∀ b ∈ sp, 97 ≤ b ∧ b ≤ 122)
    (hn : sp.length + 3 = n)
    (ht : ∀ b ∈ t, b ≠ 58)
    (hr : r.take 2 ≠ [47, 47] ∨ eqIgnoreCase t sp = false) :
    eqIgnoreCase ((t ++ 58 :: r).take n) (sp ++ sepBytes) = false := by
  have h := fast_check_colon_false sp t r hsp ht hr
  rw [hn] at h
  exact h

theorem fast_check_invalid_false7 (sp t : List Nat) (b : Nat) (r : List Nat) (n : Nat)
    (hsp : ∀ x ∈ sp, 97 ≤ x ∧ x ≤ 122)
    (hn : sp.length + 3 = n)
    (ht : ∀ x ∈ t, schemeChar x ≠ 0 ∧ schemeChar x ≠ 58)
    (hb : schemeChar b = 0) :
    eqIgnoreCase ((t ++ b :: r).take n) (sp ++ sepBytes) = false := by
  have h := fast_check_invalid_false sp t b r hsp ht hb
  rw [hn] at h
  exact h

theorem ne_58_of_valid (t : List Nat)
    (ht : ∀ x ∈ t, schemeChar x ≠ 0 ∧ schemeChar x ≠ 58) :
    ∀ b ∈ t, b ≠ 58 := by
  intro b hb hb58
  exact (ht b hb).2 (by rw [hb58]; decide)

/-! ### Full behaviour of the prefix scanner on structured inputs -/

/-- On `t ++ "://" ++ sfx` with `t` made of valid scheme bytes and not a
case-insensitive known spelling, the scanner finds the generic boundary
`t.length`, or reports `SchemeTooLong` past 64 bytes. -/
theorem parse_valid_colon (t sfx : List Nat)
    (hpos : 1 ≤ t.length + sfx.length)
    (ht : ∀ x ∈ t, schemeChar x ≠ 0 ∧ schemeChar x ≠ 58)
    (hgen : ∀ p : Protocol, eqIgnoreCase t (spelling p) = false) :
    parse (t ++ 58 :: 47 :: 47 :: sfx) =
      if 64 < t.length then .error .schemeTooLong
      else .ok (.other t.length) := by
  have hne58 := ne_58_of_valid t ht
  have hg1 : eqIgnoreCase t httpBytes = false := hgen .http
  have hg2 : eqIgnoreCase t rtspBytes = false := hgen .rtsp
  have hg3 : eqIgnoreCase t httpsBytes = false := hgen .https
  have hg4 : eqIgnoreCase t rtspsBytes = false := hgen .rtsps
  have hf1 := fast_check_colon_false7 httpBytes t (47 :: 47 :: sfx) 7
    (by decide) rfl hne58 (Or.inr hg1)
  have hf2 := fast_check_colon_false7 rtspBytes t (47 :: 47 :: sfx) 7
    (by decide) rfl hne58 (Or.inr hg2)
  have hf3 := fast_check_colon_false7 httpsBytes t (47 :: 47 :: sfx) 8
    (by decide) rfl hne58 (Or.inr hg3)
  have hf4 := fast_check_colon_false7 rtspsBytes t (47 :: 47 :: sfx) 8
    (by decide) rfl hne58 (Or.inr hg4)
  have hlen : (t ++ 58 :: 47 :: 47 :: sfx).length = t.length + sfx.length + 3 := by
    simp only [List.length_append, List.length_cons]; omega
  unfold parse
  rw [if_neg (by simp [hf1]), if_neg (by simp [hf2]), if_neg (by simp [hf3]),
    if_neg (by simp [hf4]), if_pos (by omega)]
  have h := scanLoop_valid_colon t 0 sfx ht
  simpa using h

/-- On a case variant of a known spelling followed by `"://"`, the scanner
takes the corresponding fast path. -/
theorem parse_known (p : Protocol) (c sfx : List Nat)
    (hc : eqIgnoreCase c (spelling p) = true) :
    parse (c ++ 58 :: 47 :: 47 :: sfx) = .ok (.standard p) := by
  have hlen := eqIgnoreCase_length c (spelling p) hc
  have hcl := eqIgnoreCase_letters c (spelling p) hc (spelling_lower p)
  have hne58 : ∀ b ∈ c, b ≠ 58 := by
    intro b hb
    exact (alpha_bounds b (hcl b hb)).2.2.1
  have htotal : (c ++ 58 :: 47 :: 47 :: sfx).length = c.length + sfx.length + 3 := by
    simp only [List.length_append, List.length_cons]; omega
  have hmatch : eqIgnoreCase (c ++ [58, 47, 47]) (spelling p ++ [58, 47, 47]) = true := by
    rw [eqIgnoreCase_append _ _ _ _ hlen, hc]
    simp [eqIgnoreCase_refl]
  have htake : ∀ k : Nat, k = c.length + 3 →
      (c ++ 58 :: 47 :: 47 :: sfx).take k = c ++ [58, 47, 47] := by
    intro k hk
    rw [hk]
    have := take_append_cons c (58 :: 47 :: 47 :: sfx) 3
    simpa using this
  cases p with
  | http =>
    have hsl : c.length = 4 := by simpa [spelling, httpBytes] using hlen
    unfold parse
    rw [if_pos ⟨by omega, by rw [htake 7 (by omega)]; exact hmatch⟩]
  | rtsp =>
    have hsl : c.length = 4 := by simpa [spelling, rtspBytes] using hlen
    have hg1 : eqIgnoreCase c httpBytes = false :=
      eqIgnoreCase_excl c (spelling .rtsp) httpBytes hc (by decide)
    have hf1 := fast_check_colon_false7 httpBytes c (47 :: 47 :: sfx) 7
      (by decide) rfl hne58 (Or.inr hg1)
    unfold parse
    rw [if_neg (by simp [hf1]),
      if_pos ⟨by omega, by rw [htake 7 (by omega)]; exact hmatch⟩]
  | https =>
    have hsl : c.length = 5 := by simpa [spelling, httpsBytes] using hlen
    have hg1 : eqIgnoreCase c httpBytes = false :=
      eqIgnoreCase_excl c (spelling .https) httpBytes hc (by decide)
    have hg2 : eqIgnoreCase c rtspBytes = false :=
      eqIgnoreCase_excl c (spelling .https) rtspBytes hc (by decide)
    have hf1 := fast_check_colon_false7 httpBytes c (47 :: 47 :: sfx) 7
      (by decide) rfl hne58 (Or.inr hg1)
    have hf2 := fast_check_colon_false7 rtspBytes c (47 :: 47 :: sfx) 7
      (by decide) rfl hne58 (Or.inr hg2)
    unfold parse
    rw [if_neg (by simp [hf1]), if_neg (by simp [hf2]),
      if_pos ⟨by omega, by rw [htake 8 (by omega)]; exact hmatch⟩]
  | rtsps =>
    have hsl : c.length = 5 := by simpa [spelling, rtspsBytes] using hlen
    have hg1 : eqIgnoreCase c httpBytes = false :=
      eqIgnoreCase_excl c (spelling .rtsps) httpBytes hc (by decide)
    have hg2 : eqIgnoreCase c rtspBytes = false :=
      eqIgnoreCase_excl c (spelling .rtsps) rtspBytes hc (by decide)
    have hg3 : eqIgnoreCase c httpsBytes = false :=
      eqIgnoreCase_excl c (spelling .rtsps) httpsBytes hc (by decide)
    have hf1 := fast_check_colon_false7 httpBytes c (47 :: 47 :: sfx) 7
      (by decide) rfl hne58 (Or.inr hg1)
    have hf2 := fast_check_colon_false7 rtspBytes c (47 :: 47 :: sfx) 7
      (by decide) rfl hne58 (Or.inr hg2)
    have hf3 := fast_check_colon_false7 httpsBytes c (47 :: 47 :: sfx) 8
      (by decide) rfl hne58 (Or.inr hg3)
    unfold parse
    rw [if_neg (by simp [hf1]), if_neg (by simp [hf2]), if_neg (by simp [hf3]),
      if_pos ⟨by omega, by rw [htake 8 (by omega)]; exact hmatch⟩]

/-- A colon not followed by `"//"` aborts the scan with `NoScheme`. -/
theorem parse_colon_break (t r : List Nat)
    (ht : ∀ x ∈ t, schemeChar x ≠ 0 ∧ schemeChar x ≠ 58)
    (hr : r.take 2 ≠ [47, 47]) :
    parse (t ++ 58 :: r) = .ok .none := by
  have hne58 := ne_58_of_valid t ht
  have hf1 := fast_check_colon_false7 httpBytes t r 7 (by decide) rfl hne58 (Or.inl hr)
  have hf2 := fast_check_colon_false7 rtspBytes t r 7 (by decide) rfl hne58 (Or.inl hr)
  have hf3 := fast_check_colon_false7 httpsBytes t r 8 (by decide) rfl hne58 (Or.inl hr)
  have hf4 := fast_check_colon_false7 rtspsBytes t r 8 (by decide) rfl hne58 (Or.inl hr)
  unfold parse
  rw [if_neg (by simp [hf1]), if_neg (by simp [hf2]), if_neg (by simp [hf3]),
    if_neg (by simp [hf4])]
  by_cases h3 : 3 < (t ++ 58 :: r).length
  · rw [if_pos h3]
    exact scanLoop_colon_break t 0 r ht hr
  · rw [if_neg h3]

/-- An invalid byte before any colon aborts the scan with `NoScheme`. -/
theorem parse_invalid (t : List Nat) (b : Nat) (r : List Nat)
    (ht : ∀ x ∈ t, schemeChar x ≠ 0 ∧ schemeChar x ≠ 58)
    (hb : schemeChar b = 0) :
    parse (t ++ b :: r) = .ok .none := by
  have hf1 := fast_check_invalid_false7 httpBytes t b r 7 (by decide) rfl ht hb
  have hf2 := fast_check_invalid_false7 rtspBytes t b r 7 (by decide) rfl ht hb
  have hf3 := fast_check_invalid_false7 httpsBytes t b r 8 (by decide) rfl ht hb
  have hf4 := fast_check_invalid_false7 rtspsBytes t b r 8 (by decide) rfl ht hb
  unfold parse
  rw [if_neg (by simp [hf1]), if_neg (by simp [hf2]), if_neg (by simp [hf3]),
    if_neg (by simp [hf4])]
  by_cases h3 : 3 < (t ++ b :: r).length
  · rw [if_pos h3]
    exact scanLoop_invalid t 0 b r ht hb
  · rw [if_neg h3]

/-! ### Behaviour of the exact validator on generic tokens -/

theorem parse_exact_other (t : List Nat)
    (hne : ∀ p : Protocol, t ≠ spelling p)
    (hlen : t.length ≤ 64)
    (ht : ∀ x ∈ t, schemeChar x ≠ 0 ∧ schemeChar x ≠ 58) :
    parse_exact t = .ok (.other ()) := by
  have hn1 : t ≠ httpBytes := hne .http
  have hn2 : t ≠ httpsBytes := hne .https
  have hn3 : t ≠ rtspBytes := hne .rtsp
  have hn4 : t ≠ rtspsBytes := hne .rtsps
  unfold parse_exact
  rw [if_neg hn1, if_neg hn2, if_neg hn3, if_neg hn4,
    if_neg (by simp only [MAX_SCHEME_LEN, gt_iff_lt, not_lt]; omega),
    checkSchemeBytes_ok t ht]

theorem try_from_other (t : List Nat)
    (hne : ∀ p : Protocol, t ≠ spelling p)
    (hlen : t.length ≤ 64)
    (ht : ∀ x ∈ t, schemeChar x ≠ 0 ∧ schemeChar x ≠ 58) :
    try_from t = .ok (.other t) := by
  unfold try_from
  rw [parse_exact_other t hne hlen ht]

/-- Inversion of a generic scanner success: the input splits as a valid
scheme prefix, a colon, two slashes and a remainder, and the prefix is not
a known spelling (otherwise a fast path would have fired). -/
theorem parse_other_inv (s : List Nat) (n : Nat)
    (h : parse s = .ok (.other n)) :
    ∃ t r, s = t ++ 58 :: 47 :: 47 :: r ∧ t.length = n ∧
      (∀ x ∈ t, schemeChar x ≠ 0 ∧ schemeChar x ≠ 58) ∧ n ≤ 64 ∧
      (∀ p : Protocol, t ≠ spelling p) := by
  have horig := h
  unfold parse at h
  split_ifs at h with h1 h2 h3 h4 h5
  · simp at h
  · simp at h
  · simp at h
  · simp at h
  · obtain ⟨t, r, hs, hn, hv, h64⟩ := scanLoop_ok_other_inv s 0 n h
    refine ⟨t, r, hs, by omega, hv, h64, ?_⟩
    intro p hp
    rw [hs, hp] at horig
    rw [parse_known p (spelling p) r (eqIgnoreCase_refl _)] at horig
    simp at horig
  · simp at h

theorem eqIgnoreCase_map_lower (u v : List Nat) (h : eqIgnoreCase u v = true) :
    u.map toLowerByte = v.map toLowerByte := by
  induction u generalizing v with
  | nil =>
    cases v with
    | nil => rfl
    | cons y ys => simp [eqIgnoreCase] at h
  | cons x xs ih =>
    cases v with
    | nil => simp [eqIgnoreCase] at h
    | cons y ys =>
      simp only [eqIgnoreCase, Bool.and_eq_true, decide_eq_true_eq] at h
      simp [h.1, ih ys h.2]

/-! ### The claims -/

/-- C1 (counterexample): the claim that any ASCII case variant of a known
protocol spelling is normalized to the Known Protocol variant is false:
`try_from "HTTP"` produces an `Other` token, which is unequal to
`try_from "http"` and feeds a different input to the hasher, even though
the two inputs are case-insensitively equal. -/
theorem C1_counterexample :
    try_from [72, 84, 84, 80] = .ok (.other [72, 84, 84, 80]) ∧
    try_from [104, 116, 116, 112] = .ok (.standard .http) ∧
    scheme_eq (.other [72, 84, 84, 80]) (.standard .http) = false ∧
    scheme_hash (.other [72, 84, 84, 80]) ≠ scheme_hash (.standard .http) ∧
    eqIgnoreCase [72, 84, 84, 80] [104, 116, 116, 112] = true := by
  decide

/-- C1 (amended): only the exact lowercase canonical spelling of a known
protocol is normalized to the Known Protocol variant by the exact
validator; every other ASCII case variant is accepted as an `Other` token
that coincides case-insensitively with the known name, is unequal to the
Known Protocol token, and hashes differently. -/
theorem C1_amended_case (p : Protocol) (s : List Nat)
    (hvar : eqIgnoreCase s (spelling p) = true) (hne : s ≠ spelling p) :
    try_from (spelling p) = .ok (.standard p) ∧
    try_from s = .ok (.other s) ∧
    scheme_eq (.other s) (.standard p) = false ∧
    scheme_hash (.other s) ≠ scheme_hash (.standard p) := by
  have hlen := eqIgnoreCase_length s (spelling p) hvar
  have hcl := eqIgnoreCase_letters s (spelling p) hvar (spelling_lower p)
  have hv : ∀ x ∈ s, schemeChar x ≠ 0 ∧ schemeChar x ≠ 58 :=
    fun x hx => schemeChar_valid_of_alpha x (hcl x hx)
  have hlen64 : s.length ≤ 64 := by
    rw [hlen]
    cases p <;> decide
  have hnall : ∀ q : Protocol, s ≠ spelling q := by
    intro q hq
    by_cases hpq : q = p
    · exact hne (hpq ▸ hq)
    · rw [hq] at hvar
      revert hvar hpq
      cases p <;> cases q <;> decide
  refine ⟨by cases p <;> decide, try_from_other s hnall hlen64 hv, ?_, ?_⟩
  · cases p <;> rfl
  · cases p <;> simp [scheme_hash]

/-- Witness for C1 (amended) at `s = "HTTP"`, `p = http`. -/
theorem C1_amended_case_witness :
    (eqIgnoreCase [72, 84, 84, 80] (spelling .http) = true ∧
      [72, 84, 84, 80] ≠ spelling .http) ∧
    (try_from (spelling .http) = .ok (.standard .http) ∧
     try_from [72, 84, 84, 80] = .ok (.other [72, 84, 84, 80]) ∧
     scheme_eq (.other [72, 84, 84, 80]) (.standard .http) = false ∧
     scheme_hash (.other [72, 84, 84, 80]) ≠ scheme_hash (.standard .http)) :=
  ⟨⟨by decide, by decide⟩,
   C1_amended_case .http [72, 84, 84, 80] (by decide) (by decide)⟩

/-- C2: on the empty input the exact validator does NOT fail with
`InvalidScheme` as the specification claims — it succeeds, producing an
empty `Other` token (the source's `parse_exact` has no emptiness check, and
its `None => InvalidScheme` arm in `TryFrom` is dead).  The scanner half of
the claim does hold: the empty input scans to `NoScheme`. -/
theorem C2_empty_input :
    parse_exact [] = .ok (.other ()) ∧
    try_from [] = .ok (.other []) ∧
    parse [] = .ok .none := by
  decide

/-- C3: the byte `~` (126) is NOT in the alphabet
`ALPHA / DIGIT / "+" / "-" / "."`, yet the classification table maps it to
itself, so the exact validator accepts it inside an `Other` token,
contradicting the claim (and the grammar comment above `SCHEME_CHARS`). -/
theorem C3_tilde_accepted :
    isSchemeAlphaByte 126 = false ∧
    schemeChar 126 = 126 ∧
    parse_exact [97, 126] = .ok (.other ()) ∧
    try_from [97, 126] = .ok (.other [97, 126]) := by
  decide

/-- C4: for every valid generic scheme token `t` (length 1 to 64, bytes in
the scheme alphabet, not a case-insensitive match of any known spelling)
and every suffix, scanning `t ++ "://" ++ suffix` yields the generic
boundary `t.length`; the scanned slice equals `t`, and the token built from
it equals the token the exact validator produces for `t`. -/
theorem C4_generic_scan (t sfx : List Nat)
    (hlen1 : 1 ≤ t.length) (hlen64 : t.length ≤ 64)
    (halpha : ∀ b ∈ t, isSchemeAlphaByte b = true)
    (hgen : ∀ p : Protocol, eqIgnoreCase t (spelling p) = false) :
    parse (t ++ sepBytes ++ sfx) = .ok (.other t.length) ∧
    (t ++ sepBytes ++ sfx).take t.length = t ∧
    try_from t = .ok (.other t) ∧
    scheme_eq (.other ((t ++ sepBytes ++ sfx).take t.length)) (.other t) = true := by
  have ht : ∀ x ∈ t, schemeChar x ≠ 0 ∧ schemeChar x ≠ 58 :=
    fun x hx => schemeChar_valid_of_alpha x (halpha x hx)
  have he : t ++ sepBytes ++ sfx = t ++ 58 :: 47 :: 47 :: sfx := by
    simp [sepBytes, List.append_assoc]
  have htake : (t ++ sepBytes ++ sfx).take t.length = t := by
    rw [he]
    simp
  have hnall : ∀ p : Protocol, t ≠ spelling p := by
    intro p hp
    have := hgen p
    rw [hp, eqIgnoreCase_refl] at this
    simp at this
  refine ⟨?_, htake, try_from_other t hnall hlen64 ht, ?_⟩
  · rw [he, parse_valid_colon t sfx (by omega) ht hgen, if_neg (by omega)]
  · rw [htake]
    simpa [scheme_eq] using eqIgnoreCase_refl t

/-- Witness for C4 at `t = "z"`, suffix `"x"`. -/
theorem C4_generic_scan_witness :
    (1 ≤ ([122] : List Nat).length ∧ ([122] : List Nat).length ≤ 64 ∧
     (∀ b ∈ ([122] : List Nat), isSchemeAlphaByte b = true) ∧
     (∀ p : Protocol, eqIgnoreCase [122] (spelling p) = false)) ∧
    (parse ([122] ++ sepBytes ++ [120]) = .ok (.other 1) ∧
     ([122] ++ sepBytes ++ [120] : List Nat).take 1 = [122] ∧
     try_from [122] = .ok (.other [122]) ∧
     scheme_eq (.other (([122] ++ sepBytes ++ [120] : List Nat).take 1)) (.other [122]) = true) :=
  ⟨⟨by decide, by decide, by decide, by decide⟩,
   C4_generic_scan [122] [120] (by decide) (by decide) (by decide) (by decide)⟩

/-- C5: every ASCII case variant of a known protocol spelling followed by
`"://"` and an arbitrary suffix is recognized by the scanner's fast paths
as the corresponding Known Protocol. -/
theorem C5_known_scan (p : Protocol) (c sfx : List Nat)
    (hc : eqIgnoreCase c (spelling p) = true) :
    parse (c ++ sepBytes ++ sfx) = .ok (.standard p) := by
  have he : c ++ sepBytes ++ sfx = c ++ 58 :: 47 :: 47 :: sfx := by
    simp [sepBytes, List.append_assoc]
  rw [he]
  exact parse_known p c sfx hc

/-- Witness for C5 at `c = "HtTp"`, suffix `"x"`. -/
theorem C5_known_scan_witness :
    eqIgnoreCase [72, 116, 84, 112] (spelling .http) = true ∧
    parse ([72, 116, 84, 112] ++ sepBytes ++ [120]) = .ok (.standard .http) :=
  ⟨by decide, C5_known_scan .http [72, 116, 84, 112] [120] (by decide)⟩

/-- C6: the scanner aborts with `NoScheme` on a colon not followed by
`"//"` (never scanning past it) and on an invalid byte before any colon;
concretely, `"ht!tp://x"` and `"abc:def"` scan to `NoScheme` and `"a://b"`
scans to `OtherLength 1`. -/
theorem C6_scan_stops :
    (∀ t r, (∀ x ∈ t, schemeChar x ≠ 0 ∧ schemeChar x ≠ 58) →
      r.take 2 ≠ [47, 47] → parse (t ++ 58 :: r) = .ok .none) ∧
    (∀ t b r, (∀ x ∈ t, schemeChar x ≠ 0 ∧ schemeChar x ≠ 58) →
      schemeChar b = 0 → parse (t ++ b :: r) = .ok .none) ∧
    parse [104, 116, 33, 116, 112, 58, 47, 47, 120] = .ok .none ∧
    parse [97, 98, 99, 58, 100, 101, 102] = .ok .none ∧
    parse [97, 58, 47, 47, 98] = .ok (.other 1) :=
  ⟨parse_colon_break, parse_invalid, by decide, by decide, by decide⟩

/-- Witness for C6's universally quantified parts at concrete inputs
`"h:/b"` (colon not followed by `"//"`) and `"h!t"` (invalid byte). -/
theorem C6_scan_stops_witness :
    ((∀ x ∈ ([104] : List Nat), schemeChar x ≠ 0 ∧ schemeChar x ≠ 58) ∧
     ([47, 98] : List Nat).take 2 ≠ [47, 47] ∧
     parse ([104] ++ 58 :: [47, 98]) = .ok .none) ∧
    (schemeChar 33 = 0 ∧ parse ([104] ++ 33 :: [116]) = .ok .none) :=
  ⟨⟨by decide, by decide,
    C6_scan_stops.1 [104] [47, 98] (by decide) (by decide)⟩,
   ⟨by decide,
    C6_scan_stops.2.1 [104] 33 [116] (by decide) (by decide)⟩⟩

/-- C7: a 64-byte valid token is accepted by the exact validator and, with
`"://"` appended, scans to `OtherLength 64`; a 65-byte token fails with
`SchemeTooLong` through both parsers. -/
theorem C7_length_boundary (t : List Nat)
    (halpha : ∀ b ∈ t, isSchemeAlphaByte b = true) :
    (t.length = 64 →
      parse_exact t = .ok (.other ()) ∧
      try_from t = .ok (.other t) ∧
      parse (t ++ sepBytes) = .ok (.other 64)) ∧
    (t.length = 65 →
      parse_exact t = .error .schemeTooLong ∧
      parse (t ++ sepBytes) = .error .schemeTooLong) := by
  have ht : ∀ x ∈ t, schemeChar x ≠ 0 ∧ schemeChar x ≠ 58 :=
    fun x hx => schemeChar_valid_of_alpha x (halpha x hx)
  have he : t ++ sepBytes = t ++ 58 :: 47 :: 47 :: ([] : List Nat) := rfl
  constructor
  · intro h64
    have hgen : ∀ p : Protocol, eqIgnoreCase t (spelling p) = false := by
      intro p
      refine eqIgnoreCase_length_ne _ _ ?_
      rw [h64]
      cases p <;> decide
    have hnall : ∀ p : Protocol, t ≠ spelling p := by
      intro p hp
      rw [hp] at h64
      revert h64
      cases p <;> decide
    refine ⟨parse_exact_other t hnall (by omega) ht,
      try_from_other t hnall (by omega) ht, ?_⟩
    rw [he, parse_valid_colon t [] (by omega) ht hgen, if_neg (by omega), h64]
  · intro h65
    have hgen : ∀ p : Protocol, eqIgnoreCase t (spelling p) = false := by
      intro p
      refine eqIgnoreCase_length_ne _ _ ?_
      rw [h65]
      cases p <;> decide
    have hnall : ∀ p : Protocol, t ≠ spelling p := by
      intro p hp
      rw [hp] at h65
      revert h65
      cases p <;> decide
    constructor
    · have hn1 : t ≠ httpBytes := hnall .http
      have hn2 : t ≠ httpsBytes := hnall .https
      have hn3 : t ≠ rtspBytes := hnall .rtsp
      have hn4 : t ≠ rtspsBytes := hnall .rtsps
      unfold parse_exact
      rw [if_neg hn1, if_neg hn2, if_neg hn3, if_neg hn4,
        if_pos (by simp only [MAX_SCHEME_LEN, gt_iff_lt]; omega)]
    · rw [he, parse_valid_colon t [] (by omega) ht hgen, if_pos (by omega)]

/-- Witness for C7 at 64 and 65 copies of the byte `a`. -/
theorem C7_length_boundary_witness :
    ((∀ b ∈ List.replicate 64 97, isSchemeAlphaByte b = true) ∧
     (∀ b ∈ List.replicate 65 97, isSchemeAlphaByte b = true)) ∧
    (parse_exact (List.replicate 64 97) = .ok (.other ()) ∧
     try_from (List.replicate 64 97) = .ok (.other (List.replicate 64 97)) ∧
     parse (List.replicate 64 97 ++ sepBytes) = .ok (.other 64)) ∧
    (parse_exact (List.replicate 65 97) = .error .schemeTooLong ∧
     parse (List.replicate 65 97 ++ sepBytes) = .error .schemeTooLong) :=
  ⟨⟨by decide, by decide⟩,
   (C7_length_boundary (List.replicate 64 97) (by decide)).1 (by decide),
   (C7_length_boundary (List.replicate 65 97) (by decide)).2 (by decide)⟩

/-- C8: every token produced by either parser round-trips: re-parsing its
canonical text through the exact validator yields an equal token. -/
theorem C8_roundtrip (tk : Scheme) (h : ProducedBy tk) :
    ∃ tk2, try_from (as_str tk) = .ok tk2 ∧ scheme_eq tk2 tk = true := by
  rcases h with ⟨s, hs⟩ | ⟨s, p, hs, rfl⟩ | ⟨s, n, hs, rfl⟩
  · unfold try_from at hs
    cases hpe : parse_exact s with
    | error e => rw [hpe] at hs; simp at hs
    | ok v =>
      rw [hpe] at hs
      cases v with
      | none => simp at hs
      | standard p =>
        have htk : tk = .standard p := by simpa using hs.symm
        subst htk
        refine ⟨.standard p, ?_, ?_⟩
        · cases p <;> decide
        · cases p <;> decide
      | other u =>
        have htk : tk = .other s := by simpa using hs.symm
        subst htk
        refine ⟨.other s, ?_, by simpa [scheme_eq] using eqIgnoreCase_refl s⟩
        show try_from s = .ok (.other s)
        unfold try_from
        rw [hpe]
  · exact ⟨.standard p, by cases p <;> decide, by cases p <;> decide⟩
  · obtain ⟨t, r, hseq, htn, hv, h64, hnsp⟩ := parse_other_inv s n hs
    have htake : s.take n = t := by
      rw [hseq, ← htn]
      simp
    rw [htake]
    refine ⟨.other t, ?_, by simpa [scheme_eq] using eqIgnoreCase_refl t⟩
    show try_from t = .ok (.other t)
    exact try_from_other t hnsp (by omega) hv

/-- Witness for C8 at the token produced by the exact validator on
`"http"`. -/
theorem C8_roundtrip_witness :
    ProducedBy (.standard .http) ∧
    ∃ tk2, try_from (as_str (.standard .http)) = .ok tk2 ∧
      scheme_eq tk2 (.standard .http) = true := by
  have hp : ProducedBy (Scheme2.standard Protocol.http) :=
    Or.inl ⟨httpBytes, by decide⟩
  exact ⟨hp, C8_roundtrip _ hp⟩

/-- C9: equality and hashing agree: any two scheme tokens equal under the
case-insensitive equality feed identical input sequences to the hasher. -/
theorem C9_eq_hash (a b : Scheme) (h : scheme_eq a b = true) :
    scheme_hash a = scheme_hash b := by
  cases a with
  | none =>
    cases b with
    | none => simp [scheme_eq] at h
    | standard q => cases q <;> simp [scheme_eq] at h
    | other v => simp [scheme_eq] at h
  | standard p =>
    cases b with
    | none => cases p <;> simp [scheme_eq] at h
    | standard q => cases p <;> cases q <;> simp_all [scheme_eq, scheme_hash]
    | other v => cases p <;> simp [scheme_eq] at h
  | other u =>
    cases b with
    | none => simp [scheme_eq] at h
    | standard q => cases q <;> simp [scheme_eq] at h
    | other v =>
      have he : eqIgnoreCase u v = true := by simpa [scheme_eq] using h
      have hmap : ∀ w : List Nat,
          w.map (fun x => HashTok.byteTok (toLowerByte x)) =
            (w.map toLowerByte).map HashTok.byteTok := by
        intro w
        simp [List.map_map]
      simp only [scheme_hash, eqIgnoreCase_length u v he, hmap,
        eqIgnoreCase_map_lower u v he]

/-- Witness for C9 at the equal tokens `Other "Ab"` and `Other "aB"`. -/
theorem C9_eq_hash_witness :
    scheme_eq (.other [65, 98]) (.other [97, 66]) = true ∧
    scheme_hash (.other [65, 98]) = scheme_hash (.other [97, 66]) :=
  ⟨by decide, C9_eq_hash _ _ (by decide)⟩

/-- C10: any input of length at least 4 that starts with `"://"` scans to
`OtherLength 0`, a zero-length scheme boundary whose slice is the empty
`Other` payload. -/
theorem C10_sep_prefix (s : List Nat) (h4 : 4 ≤ s.length)
    (h3 : s.take 3 = sepBytes) :
    parse s = .ok (.other 0) ∧ s.take 0 = [] := by
  cases s with
  | nil => simp at h4
  | cons x s1 =>
    cases s1 with
    | nil => simp [sepBytes] at h3
    | cons y s2 =>
      cases s2 with
      | nil => simp [sepBytes] at h3
      | cons z r =>
        simp only [List.take_succ_cons, List.take_zero, sepBytes] at h3
        obtain ⟨hx, hy, hz⟩ : x = 58 ∧ y = 47 ∧ z = 47 := by simpa using h3
        subst hx; subst hy; subst hz
        have hrlen : 1 ≤ r.length := by
          simp only [List.length_cons] at h4
          omega
        refine ⟨?_, by simp⟩
        have h := parse_valid_colon [] r (by simpa using hrlen)
          (by simp) (by decide)
        simpa using h

/-- Witness for C10 at the input `"://x"`. -/
theorem C10_sep_prefix_witness :
    (4 ≤ ([58, 47, 47, 120] : List Nat).length ∧
      ([58, 47, 47, 120] : List Nat).take 3 = sepBytes) ∧
    (parse [58, 47, 47, 120] = .ok (.other 0) ∧
      ([58, 47, 47, 120] : List Nat).take 0 = []) :=
  ⟨⟨by decide, by decide⟩,
   C10_sep_prefix [58, 47, 47, 120] (by decide) (by decide)⟩

end Httplike
